import Mathlib

/-!
Verification of the quickenv environment-materialization and shim-dispatch
engine, shallowly embedded from the Rust sources (`src/core.rs`, `src/main.rs`,
`src/signals.rs`). Byte strings (`OsString`, `Vec<u8>`) are modelled as lists
of byte values; `BTreeMap<OsString, OsString>` is modelled as an association
list sorted strictly by key under the lexicographic byte order; fallible or
panicking code returns `Option`; the effects of `compute_envvars` on the cache
file are modelled by explicit state passing.
-/

namespace Quickenv

/-- A byte string: `OsString` / `Vec<u8>` / `&[u8]` in the Rust source. -/
abbrev ByteStr := List Nat

/-- Strict lexicographic order on byte strings, mirroring `Ord for OsString`
(shorter strings precede their extensions). -/
def byteLt : ByteStr → ByteStr → Bool
  | [], [] => false
  | [], _ :: _ => true
  | _ :: _, [] => false
  | a :: as, b :: bs => if a < b then true else if b < a then false else byteLt as bs

/-- An environment snapshot: `pub type Env = BTreeMap<OsString, OsString>`
(core.rs line 7), modelled as an association list sorted strictly by key. -/
abbrev Env := List (ByteStr × ByteStr)

/-- `BTreeMap::insert`: insert or replace, keeping keys sorted. -/
def envInsert (k v : ByteStr) : Env → Env
  | [] => [(k, v)]
  | (k', v') :: rest =>
    if byteLt k k' then (k, v) :: (k', v') :: rest
    else if k = k' then (k, v) :: rest
    else (k', v') :: envInsert k v rest

/-- `BTreeMap::get`. -/
def envGet (k : ByteStr) : Env → Option ByteStr
  | [] => none
  | (k', v') :: rest => if k' = k then some v' else envGet k rest

/-- Well-formedness of the `BTreeMap` model: keys strictly ascending. -/
def EnvWF (e : Env) : Prop :=
  List.Pairwise (fun a b => byteLt a.1 b.1 = true) e

instance (e : Env) : Decidable (EnvWF e) := by
  unfold EnvWF; infer_instance

/-- `line.splitn(2, |&x| x == b'=')` in `parse_env_line` (core.rs):
`some (key, rest)` when the line contains the byte `b'='` (61), split at its
first occurrence; `none` when it does not. -/
def splitEq : ByteStr → Option (ByteStr × ByteStr)
  | [] => none
  | c :: rest =>
    if c = 61 then some ([], rest)
    else
      match splitEq rest with
      | some (k, v) => some (c :: k, v)
      | none => none

/-- `parse_env_line` (core.rs lines 67-86). A line with a separator inserts a
new variable and records it as the previous variable; a separator-less line is
a continuation: the source unwraps the previous variable name and its entry in
the snapshot (panicking otherwise, modelled by `none`) and appends a newline
followed by the line to its value. -/
def parse_env_line (line : ByteStr) (env : Env) (prev : Option ByteStr) :
    Option (Env × Option ByteStr) :=
  match splitEq line with
  | some (k, v) => some (envInsert k v env, some k)
  | none =>
    match prev with
    | none => none
    | some k =>
      match envGet k env with
      | none => none
      | some w => some (envInsert k (w ++ 10 :: line) env, prev)

/-- Split a byte string at every occurrence of byte `d`; always returns at
least one (possibly empty) segment, and no segment contains `d`. -/
def splitOnByte (d : Nat) : List Nat → List (List Nat)
  | [] => [[]]
  | c :: rest =>
    if c = d then [] :: splitOnByte d rest
    else
      match splitOnByte d rest with
      | [] => [[c]]
      | s :: ss => (c :: s) :: ss

/-- `BufRead::split(b'\n')` over a whole input: the newline-separated
segments, except that the final segment is not yielded when it is empty
(empty input yields nothing; a trailing newline yields no extra segment). -/
def splitLines (input : ByteStr) : List ByteStr :=
  let segs := splitOnByte 10 input
  if segs.getLast? = some [] then segs.dropLast else segs

/-- Folding `parse_env_line` over a list of lines, as done by `get_envvars`
(core.rs lines 88-109) over a cache file and by `parse_env_diff` over the
lines of one sentinel-delimited block. -/
def foldBlock : List ByteStr → Env → Option ByteStr → Option (Env × Option ByteStr)
  | [], env, prev => some (env, prev)
  | l :: rest, env, prev =>
    match parse_env_line l env prev with
    | none => none
    | some (env', prev') => foldBlock rest env' prev'

/-- Parsing the contents of an existing cache file: `get_envvars`
(core.rs lines 88-109), starting from an empty map and no previous variable. -/
def parseCache (input : ByteStr) : Option Env :=
  (foldBlock (splitLines input) [] none).map Prod.fst

/-- One record of the cache format: `key=value\n`, as written by the loop in
`compute_envvars` (main.rs lines 343-350) and printed by `command_vars`
(main.rs lines 526-532). -/
def serializeRecord (kv : ByteStr × ByteStr) : ByteStr :=
  kv.1 ++ 61 :: kv.2 ++ [10]

/-- The bytes written for a whole snapshot, records in map iteration order. -/
def serializeEnv (e : Env) : ByteStr :=
  (e.map serializeRecord).flatten

/-- The diff computed by `compute_envvars` (main.rs lines 343-350): entries of
the after snapshot whose value differs from the before snapshot's entry for
that key (`old_env.get(&key) != Some(&value)`). -/
def computeDiff (old new : Env) : Env :=
  new.filter fun kv => envGet kv.1 old != some kv.2

/-! The diff-protocol parser `parse_env_diff` (main.rs lines 165-211). -/

/-- ASCII bytes of a string literal. -/
def asciiStr (s : String) : ByteStr := s.data.map Char.toNat

def sentinelBeginBefore : ByteStr := asciiStr "// BEGIN QUICKENV-BEFORE"

def sentinelEndBefore : ByteStr := asciiStr "// END QUICKENV-BEFORE"

def sentinelBeginAfter : ByteStr := asciiStr "// BEGIN QUICKENV-AFTER"

def sentinelEndAfter : ByteStr := asciiStr "// END QUICKENV-AFTER"

/-- The four sentinel lines, in protocol order. -/
def sentinels : List ByteStr :=
  [sentinelBeginBefore, sentinelEndBefore, sentinelBeginAfter, sentinelEndAfter]

/-- `ParseState` (main.rs lines 156-163); `done` is the source's `End`. -/
inductive ParseState
  | preBefore
  | inBefore
  | preAfter
  | inAfter
  | done
  deriving DecidableEq

/-- The loop body of `parse_env_diff` over the split lines. `out` accumulates
(in reverse) the lines handed to the `script_output` callback; each sentinel
transition resets the previous-variable tracker to `none`; lines inside the
two blocks are fed to `parse_env_line` against the respective snapshot; all
other lines are passed through. -/
def parseEnvDiffLoop :
    List ByteStr → ParseState → Env → Env → Option ByteStr → List ByteStr →
      Option (Env × Env × List ByteStr)
  | [], _, old, new, _, out => some (old, new, out.reverse)
  | l :: rest, st, old, new, prev, out =>
    match st with
    | .preBefore =>
      if l = sentinelBeginBefore then parseEnvDiffLoop rest .inBefore old new none out
      else parseEnvDiffLoop rest .preBefore old new prev (l :: out)
    | .inBefore =>
      if l = sentinelEndBefore then parseEnvDiffLoop rest .preAfter old new none out
      else
        match parse_env_line l old prev with
        | none => none
        | some (old', prev') => parseEnvDiffLoop rest .inBefore old' new prev' out
    | .preAfter =>
      if l = sentinelBeginAfter then parseEnvDiffLoop rest .inAfter old new none out
      else parseEnvDiffLoop rest .preAfter old new prev (l :: out)
    | .inAfter =>
      if l = sentinelEndAfter then parseEnvDiffLoop rest .done old new none out
      else
        match parse_env_line l new prev with
        | none => none
        | some (new', prev') => parseEnvDiffLoop rest .inAfter old new' prev' out
    | .done => parseEnvDiffLoop rest .done old new prev (l :: out)

/-- `parse_env_diff` (main.rs lines 165-211): split the input stream on
newlines, run the state machine, and return the before/after snapshots
together with the pass-through lines in the order the callback received
them. `none` models a `parse_env_line` panic. -/
def parse_env_diff (input : ByteStr) : Option (Env × Env × List ByteStr) :=
  parseEnvDiffLoop (splitLines input) .preBefore [] [] none []

/-! The Materializer `compute_envvars` (main.rs lines 265-353), modelled from
the point where the subprocess has been spawned: its stdout bytes and exit
status are inputs, and the cache file's contents (`none` when the file does
not exist) are threaded as explicit state. The source parses the output
stream, then waits for the subprocess, fails if the status is non-success,
and only then creates and rewrites the cache file with the diff. -/
def compute_envvars (cache : Option ByteStr) (stdout : ByteStr) (exitSuccess : Bool) :
    Except String Unit × Option ByteStr :=
  match parse_env_diff stdout with
  | none => (Except.error "failed to parse envrc output", cache)
  | some (old, new, _) =>
    if exitSuccess then
      (Except.ok (), some (serializeEnv (computeDiff old new)))
    else
      (Except.error ".envrc exited with status", cache)

/-! The Context Resolver `resolve_envrc_context` (core.rs lines 28-55). -/

/-- Outcome of `std::fs::File::open` on a directory's `.envrc`: success with a
file handle, failure although the file exists (permissions and the like), or
failure because it does not exist. The source only distinguishes `Ok` from
`Err`. -/
inductive OpenOutcome
  | opened (handle : Nat)
  | errOther
  | errNotFound
  deriving DecidableEq

/-- Result of the walk in `resolve_envrc_context`: the context (directory and
file handle), or the `NoEnvrc` error. `ioError` is the I/O-error outcome the
error type (`core.rs` `Error::Io`) allows, included so that claims about it
can be stated. -/
inductive ResolveOutcome
  | found (dir : List String) (handle : Nat)
  | noEnvrc
  | ioError
  deriving DecidableEq

/-- The loop of `resolve_envrc_context` (core.rs lines 31-41). A directory is
a list of path components, innermost first, so `root.pop()` is `List.tail`
and the filesystem root is `[]`. `if let Ok(f) = File::open(..)` breaks on a
successful open; on any open failure the walk pops to the parent, and at the
root it returns `NoEnvrc`. -/
def resolve_envrc_walk (f : List String → OpenOutcome) : List String → ResolveOutcome
  | [] =>
    match f [] with
    | .opened h => .found [] h
    | _ => .noEnvrc
  | d :: parent =>
    match f (d :: parent) with
    | .opened h => .found (d :: parent) h
    | _ => resolve_envrc_walk f parent

/-- Does any directory of the walk (the start directory and all its
ancestors) open successfully? -/
def walkCanOpen (f : List String → OpenOutcome) (d : List String) : Bool :=
  d.tails.any fun a =>
    match f a with
    | .opened _ => true
    | _ => false

/-! The amended-PATH computation in `find_shimmed_binary`
(main.rs lines 770-792). -/

/-- `std::env::split_paths`: split on `b':'` (58), keeping empty entries. -/
def splitPaths (pathStr : ByteStr) : List ByteStr := splitOnByte 58 pathStr

/-- The skip test of the loop: the entry equals `quickenv_home.join("bin")`
or canonicalizes to it; `canon` is the `std::fs::canonicalize` oracle
(`none` models `Err`, in which case `map_or(false, ..)` keeps the entry). -/
def skipEntry (shimBin : ByteStr) (canon : ByteStr → Option ByteStr) (e : ByteStr) : Bool :=
  shimBin == e || canon e == some shimBin

/-- The loop building `new_path` (main.rs lines 777-790): skipped entries are
dropped; a kept entry is appended, preceded by `b':'` unless the accumulator
is still empty. -/
def amendPathLoop (shimBin : ByteStr) (canon : ByteStr → Option ByteStr) :
    List ByteStr → ByteStr → ByteStr
  | [], acc => acc
  | e :: rest, acc =>
    if skipEntry shimBin canon e then amendPathLoop shimBin canon rest acc
    else amendPathLoop shimBin canon rest ((if acc.isEmpty then acc else acc ++ [58]) ++ e)

/-- The amended PATH computed at shim dispatch from the input PATH string. -/
def amendPath (shimBin : ByteStr) (canon : ByteStr → Option ByteStr)
    (pathStr : ByteStr) : ByteStr :=
  amendPathLoop shimBin canon (splitPaths pathStr) []

/-- Joining a list of entries with `b':'` separators. -/
def joinPaths : List ByteStr → ByteStr
  | [] => []
  | [e] => e
  | e :: f :: t => e ++ 58 :: joinPaths (f :: t)

/-! The Missing-Shim Detector `get_missing_shims` and
`get_missing_shims_from_dir` (main.rs lines 355-419). -/

/-- A directory entry as observed through `std::fs`: its (UTF-8) file name,
whether it is a directory, and its permission mode bits. -/
structure FileEntry where
  name : String
  isDir : Bool
  mode : Nat
  deriving DecidableEq

/-- `get_missing_shims_from_dir` (main.rs lines 388-419) over the entries of
one readable directory: directories are skipped, entries without any
executable bit (`mode & 0o111 == 0`) are skipped, entries whose basename
already has a shim at `<home>/bin/<name>` are skipped, the rest are inserted
into the result set. `shimExists` is the `Path::exists` oracle for the shim
of a given basename. -/
def get_missing_shims_from_dir (shimExists : String → Bool)
    (entries : List FileEntry) (rv : List String) : List String :=
  entries.foldl
    (fun rv e =>
      if e.isDir then rv
      else if e.mode &&& 0o111 == 0 then rv
      else if shimExists e.name then rv
      else rv.insert e.name)
    rv

/-- `get_missing_shims` (main.rs lines 355-386). `canon` is the
`std::fs::canonicalize` oracle (failure keeps the path as is, per
`unwrap_or`); `readDir` is the `read_dir` oracle (`none` models an error, in
which case the directory is logged and skipped); `oldPath` is the ambient
`PATH` split into entries; `newPath` is the cached `PATH`, absent when the
cache has no `PATH` variable. -/
def get_missing_shims (canon : ByteStr → Option ByteStr)
    (readDir : ByteStr → Option (List FileEntry)) (shimExists : String → Bool)
    (oldPath : List ByteStr) (newPath : Option (List ByteStr)) : List String :=
  match newPath with
  | none => []
  | some newDirs =>
    newDirs.foldl
      (fun rv d =>
        if (canon d).getD d ∈ oldPath.map (fun x => (canon x).getD x) then rv
        else
          match readDir ((canon d).getD d) with
          | none => rv
          | some entries => get_missing_shims_from_dir shimExists entries rv)
      []

/-! Exit codes (main.rs lines 96-104 and 729-743, signals.rs line 7). -/

/-- `INTERRUPTED_EXIT_CODE` (signals.rs line 7). -/
def INTERRUPTED_EXIT_CODE : Int := 130

/-- The exit code used by `main` when a command fails (main.rs line 101). -/
def genericFailureExitCode : Int := 1

/-- The exit code of the quickenv process in subprocess transfer mode
(main.rs lines 737-742): the child's exit code when `ExitStatus::code()`
yields one, and the fixed fallback 134 otherwise. -/
def exec_shimmed_binary_exit (childCode : Option Int) : Int :=
  match childCode with
  | some code => code
  | none => 134

/-- An open oracle with an `.envrc` that exists but cannot be opened in the
working directory, and nothing anywhere else. -/
def c7Open : List String → OpenOutcome := fun d =>
  if d = ["a"] then OpenOutcome.errOther else OpenOutcome.errNotFound

/-- The `:`-prepended flattening of a list of entries. -/
def prependPaths (l : List ByteStr) : ByteStr :=
  (l.map fun e => 58 :: e).flatten

/-- A canonicalization oracle under which `std::fs::canonicalize` always
fails. -/
def c5Canon : ByteStr → Option ByteStr := fun _ => none

/-- A concrete well-formed activation-run output stream. -/
def c2Input : ByteStr :=
  asciiStr "echo1" ++ 10 ::
    (sentinelBeginBefore ++ 10 ::
      (asciiStr "a=1" ++ 10 ::
        (sentinelEndBefore ++ 10 ::
          (asciiStr "echo2" ++ 10 ::
            (sentinelBeginAfter ++ 10 ::
              (asciiStr "a=2" ++ 10 ::
                (sentinelEndAfter ++ 10 :: asciiStr "echo3")))))))

/-! Order lemmas for `byteLt`. -/

theorem byteLt_irrefl (a : ByteStr) : byteLt a a = false := by
  induction a with
  | nil => rfl
  | cons c rest ih => simp [byteLt, ih]

theorem byteLt_asymm : ∀ a b : ByteStr, byteLt a b = true → byteLt b a = false
  | [], [], h => by simp [byteLt] at h
  | [], _ :: _, _ => rfl
  | _ :: _, [], h => by simp [byteLt] at h
  | a :: as, b :: bs, h => by
    simp only [byteLt] at h ⊢
    rcases Nat.lt_trichotomy a b with hab | hab | hab
    · simp [hab, Nat.lt_asymm hab]
    · subst hab
      simp only [Nat.lt_irrefl, if_false] at h ⊢
      exact byteLt_asymm as bs h
    · simp [hab, Nat.lt_asymm hab] at h

theorem byteLt_trans : ∀ a b c : ByteStr,
    byteLt a b = true → byteLt b c = true → byteLt a c = true
  | [], _, _ :: _, _, _ => rfl
  | [], _ :: _, [], _, h2 => by simp [byteLt] at h2
  | [], [], [], h1, _ => by simp [byteLt] at h1
  | _ :: _, [], _, h1, _ => by simp [byteLt] at h1
  | _ :: _, _ :: _, [], _, h2 => by simp [byteLt] at h2
  | a :: as, b :: bs, c :: cs, h1, h2 => by
    simp only [byteLt] at h1 h2 ⊢
    rcases Nat.lt_trichotomy a b with hab | hab | hab
    · rcases Nat.lt_trichotomy b c with hbc | hbc | hbc
      · simp [Nat.lt_trans hab hbc]
      · subst hbc; simp [hab]
      · simp [hbc, Nat.lt_asymm hbc] at h2
    · subst hab
      simp only [Nat.lt_irrefl, if_false] at h1
      rcases Nat.lt_trichotomy a c with hac | hac | hac
      · simp [hac]
      · subst hac
        simp only [Nat.lt_irrefl, if_false] at h2 ⊢
        exact byteLt_trans as bs cs h1 h2
      · simp [hac, Nat.lt_asymm hac] at h2
    · simp [hab, Nat.lt_asymm hab] at h1

theorem byteLt_connex : ∀ a b : ByteStr,
    a ≠ b → byteLt a b = true ∨ byteLt b a = true
  | [], [], h => absurd rfl h
  | [], _ :: _, _ => Or.inl rfl
  | _ :: _, [], _ => Or.inr rfl
  | a :: as, b :: bs, h => by
    simp only [byteLt]
    rcases Nat.lt_trichotomy a b with hab | hab | hab
    · simp [hab]
    · subst hab
      simp only [Nat.lt_irrefl, if_false]
      have : as ≠ bs := by intro hx; exact h (by rw [hx])
      exact byteLt_connex as bs this
    · simp [hab, Nat.lt_asymm hab]

theorem byteLt_ne {a b : ByteStr} (h : byteLt a b = true) : a ≠ b := by
  intro hx; subst hx; rw [byteLt_irrefl] at h; exact Bool.noConfusion h

/-! Lemmas about `envInsert` and `envGet`. -/

theorem envGet_insert_self (k v : ByteStr) :
    ∀ e : Env, envGet k (envInsert k v e) = some v := by
  intro e
  induction e with
  | nil => simp [envInsert, envGet]
  | cons kv rest ih =>
    obtain ⟨k', v'⟩ := kv
    by_cases hlt : byteLt k k' = true
    · simp [envInsert, hlt, envGet]
    · by_cases heq : k = k'
      · subst heq
        simp [envInsert, byteLt_irrefl, envGet]
      · have hne : k' ≠ k := fun hx => heq hx.symm
        simp [envInsert, hlt, heq, envGet, hne, ih]

theorem envInsert_mem_or (k v : ByteStr) :
    ∀ (e : Env) (kv : ByteStr × ByteStr), kv ∈ envInsert k v e → kv = (k, v) ∨ kv ∈ e := by
  intro e
  induction e with
  | nil => intro kv h; simp [envInsert] at h; exact Or.inl h
  | cons hd rest ih =>
    obtain ⟨k', v'⟩ := hd
    intro kv h
    by_cases hlt : byteLt k k' = true
    · rw [envInsert, if_pos hlt] at h
      rcases List.mem_cons.mp h with h | h
      · exact Or.inl h
      · exact Or.inr h
    · by_cases heq : k = k'
      · subst heq
        rw [envInsert, if_neg (by simp [byteLt_irrefl]), if_pos rfl] at h
        rcases List.mem_cons.mp h with h | h
        · exact Or.inl h
        · exact Or.inr (List.mem_cons_of_mem _ h)
      · rw [envInsert, if_neg hlt, if_neg heq] at h
        rcases List.mem_cons.mp h with h | h
        · exact Or.inr (by simp [h])
        · rcases ih kv h with h' | h'
          · exact Or.inl h'
          · exact Or.inr (List.mem_cons_of_mem _ h')

theorem envInsert_wf (k v : ByteStr) :
    ∀ e : Env, EnvWF e → EnvWF (envInsert k v e) := by
  intro e
  induction e with
  | nil =>
    intro _
    simp [envInsert, EnvWF]
  | cons hd rest ih =>
    obtain ⟨k', v'⟩ := hd
    intro hwf
    rw [EnvWF, List.pairwise_cons] at hwf
    obtain ⟨hhd, htail⟩ := hwf
    by_cases hlt : byteLt k k' = true
    · rw [envInsert, if_pos hlt, EnvWF, List.pairwise_cons]
      constructor
      · intro kv hkv
        rcases List.mem_cons.mp hkv with hkv | hkv
        · simp [hkv, hlt]
        · exact byteLt_trans _ _ _ hlt (hhd kv hkv)
      · rw [List.pairwise_cons]
        exact ⟨hhd, htail⟩
    · by_cases heq : k = k'
      · subst heq
        rw [envInsert, if_neg (by simp [byteLt_irrefl]), if_pos rfl, EnvWF,
          List.pairwise_cons]
        exact ⟨fun kv hkv => hhd kv hkv, htail⟩
      · rw [envInsert, if_neg hlt, if_neg heq, EnvWF, List.pairwise_cons]
        constructor
        · intro kv hkv
          rcases envInsert_mem_or k v rest kv hkv with h | h
          · rw [h]
            rcases byteLt_connex k k' heq with h' | h'
            · exact absurd h' hlt
            · exact h'
          · exact hhd kv h
        · exact ih htail

theorem envInsert_insert_same (k v' v : ByteStr) :
    ∀ e : Env, envInsert k v' (envInsert k v e) = envInsert k v' e := by
  intro e
  induction e with
  | nil => simp [envInsert, byteLt_irrefl]
  | cons hd rest ih =>
    obtain ⟨k', w⟩ := hd
    by_cases hlt : byteLt k k' = true
    · simp [envInsert, hlt, byteLt_irrefl]
    · by_cases heq : k = k'
      · simp [envInsert, hlt, heq, byteLt_irrefl]
      · simp [envInsert, hlt, heq, ih]

theorem envGet_mem {k v : ByteStr} :
    ∀ {e : Env}, envGet k e = some v → (k, v) ∈ e := by
  intro e
  induction e with
  | nil => intro h; simp [envGet] at h
  | cons hd rest ih =>
    obtain ⟨k', v'⟩ := hd
    intro h
    by_cases heq : k' = k
    · simp only [envGet, heq, if_true] at h
      obtain rfl := Option.some_injective _ h
      simp [heq]
    · simp only [envGet, heq, if_false] at h
      exact List.mem_cons_of_mem _ (ih h)

theorem mem_envGet {k v : ByteStr} :
    ∀ {e : Env}, EnvWF e → (k, v) ∈ e → envGet k e = some v := by
  intro e
  induction e with
  | nil => intro _ h; simp at h
  | cons hd rest ih =>
    obtain ⟨k', v'⟩ := hd
    intro hwf h
    rw [EnvWF, List.pairwise_cons] at hwf
    obtain ⟨hhd, htail⟩ := hwf
    rcases List.mem_cons.mp h with h | h
    · obtain ⟨h1, h2⟩ := Prod.mk.injEq .. ▸ h
      simp [envGet, h1.symm, h2]
    · have hne : k' ≠ k := by
        have := hhd _ h
        exact byteLt_ne this
      simp only [envGet, hne, if_false]
      exact ih htail h

/-! Lemmas about `splitOnByte`, `splitEq` and `foldBlock`. -/

theorem splitOnByte_ne_nil (d : Nat) : ∀ xs : List Nat, splitOnByte d xs ≠ [] := by
  intro xs
  cases xs with
  | nil => simp [splitOnByte]
  | cons c rest =>
    rw [splitOnByte]
    by_cases hc : c = d
    · simp [hc]
    · rw [if_neg hc]
      cases h : splitOnByte d rest with
      | nil => simp
      | cons s ss => simp

theorem splitOnByte_append (d : Nat) :
    ∀ xs ys : List Nat, splitOnByte d (xs ++ d :: ys) = splitOnByte d xs ++ splitOnByte d ys := by
  intro xs ys
  induction xs with
  | nil => simp [splitOnByte]
  | cons c rest ih =>
    by_cases hc : c = d
    · simp [splitOnByte, hc, ih]
    · rw [List.cons_append, splitOnByte, if_neg hc, ih]
      rw [splitOnByte, if_neg hc]
      cases h : splitOnByte d rest with
      | nil => exact absurd h (splitOnByte_ne_nil d rest)
      | cons s ss => simp

theorem splitOnByte_no_delim (d : Nat) :
    ∀ xs : List Nat, d ∉ xs → splitOnByte d xs = [xs] := by
  intro xs
  induction xs with
  | nil => intro _; rfl
  | cons c rest ih =>
    intro h
    have hc : c ≠ d := fun hx => h (by simp [hx])
    have hrest : d ∉ rest := fun hx => h (List.mem_cons_of_mem _ hx)
    rw [splitOnByte, if_neg hc, ih hrest]

theorem splitOnByte_clean_head (d : Nat) :
    ∀ (xs ys : List Nat) (h : List Nat) (t : List (List Nat)), d ∉ xs →
      splitOnByte d ys = h :: t → splitOnByte d (xs ++ ys) = (xs ++ h) :: t := by
  intro xs ys h t hxs hys
  induction xs with
  | nil => simpa using hys
  | cons c rest ih =>
    have hc : c ≠ d := fun hx => hxs (by simp [hx])
    have hrest : d ∉ rest := fun hx => hxs (List.mem_cons_of_mem _ hx)
    rw [List.cons_append, splitOnByte, if_neg hc, ih hrest]
    rfl

theorem splitOnByte_reconstruct (d : Nat) :
    ∀ (xs : List Nat) (h : List Nat) (t : List (List Nat)),
      splitOnByte d xs = h :: t → xs = h ++ (t.map fun s => d :: s).flatten
  | [], h, t, hsplit => by
    rw [splitOnByte] at hsplit
    injection hsplit with h1 h2
    subst h1; subst h2; rfl
  | c :: rest, h, t, hsplit => by
    by_cases hc : c = d
    · subst hc
      rw [splitOnByte, if_pos rfl] at hsplit
      injection hsplit with h1 h2
      subst h1
      cases t with
      | nil => exact absurd h2 (splitOnByte_ne_nil c rest)
      | cons h' t' =>
        have := splitOnByte_reconstruct c rest h' t' h2
        simp [this]
    · rw [splitOnByte, if_neg hc] at hsplit
      cases hrest : splitOnByte d rest with
      | nil => exact absurd hrest (splitOnByte_ne_nil d rest)
      | cons s ss =>
        rw [hrest] at hsplit
        injection hsplit with h1 h2
        subst h1; subst h2
        have := splitOnByte_reconstruct d rest s ss hrest
        simp [this]

theorem splitEq_append (k v : ByteStr) (h : (61 : Nat) ∉ k) :
    splitEq (k ++ 61 :: v) = some (k, v) := by
  induction k with
  | nil => simp [splitEq]
  | cons c rest ih =>
    have hc : c ≠ 61 := fun hx => h (by simp [hx])
    have hrest : (61 : Nat) ∉ rest := fun hx => h (List.mem_cons_of_mem _ hx)
    rw [List.cons_append, splitEq, if_neg hc, ih hrest]

theorem splitEq_none (s : ByteStr) (h : (61 : Nat) ∉ s) : splitEq s = none := by
  induction s with
  | nil => rfl
  | cons c rest ih =>
    have hc : c ≠ 61 := fun hx => h (by simp [hx])
    have hrest : (61 : Nat) ∉ rest := fun hx => h (List.mem_cons_of_mem _ hx)
    rw [splitEq, if_neg hc, ih hrest]

theorem foldBlock_append (a b : List ByteStr) :
    ∀ env prev, foldBlock (a ++ b) env prev =
      match foldBlock a env prev with
      | none => none
      | some (env', prev') => foldBlock b env' prev' := by
  induction a with
  | nil => intro env prev; simp [foldBlock]
  | cons l rest ih =>
    intro env prev
    rw [List.cons_append, foldBlock, foldBlock]
    cases parse_env_line l env prev with
    | none => rfl
    | some ep => exact ih ep.1 ep.2

theorem parse_env_line_kv {line : ByteStr} {k v : ByteStr} (h : splitEq line = some (k, v)) :
    ∀ env prev, parse_env_line line env prev = some (envInsert k v env, some k) := by
  intro env prev
  unfold parse_env_line
  rw [h]

theorem parse_env_line_cont {line : ByteStr} (h : (61 : Nat) ∉ line) {k w : ByteStr}
    {env : Env} (hget : envGet k env = some w) :
    parse_env_line line env (some k) = some (envInsert k (w ++ 10 :: line) env, some k) := by
  have h1 : parse_env_line line env (some k) =
      match envGet k env with
      | none => none
      | some w => some (envInsert k (w ++ 10 :: line) env, some k) := by
    unfold parse_env_line
    rw [splitEq_none line h]
  rw [h1, hget]

theorem foldBlock_cons (l : ByteStr) (rest : List ByteStr) (env : Env) (prev : Option ByteStr) :
    foldBlock (l :: rest) env prev =
      match parse_env_line l env prev with
      | none => none
      | some (env', prev') => foldBlock rest env' prev' := rfl

theorem foldBlock_cons_some {l : ByteStr} {env : Env} {prev : Option ByteStr}
    {env' : Env} {prev' : Option ByteStr} (h : parse_env_line l env prev = some (env', prev'))
    (rest : List ByteStr) : foldBlock (l :: rest) env prev = foldBlock rest env' prev' := by
  rw [foldBlock_cons, h]

theorem foldBlock_continuations (k : ByteStr) :
    ∀ (segs : List ByteStr) (env : Env) (w : ByteStr),
      (∀ s ∈ segs, (61 : Nat) ∉ s) → envGet k env = some w →
        foldBlock segs env (some k) =
          some ((if segs = [] then env
            else envInsert k (w ++ (segs.map fun s => 10 :: s).flatten) env), some k) := by
  intro segs
  induction segs with
  | nil => intro env w _ _; simp [foldBlock]
  | cons s rest ih =>
    intro env w hsegs hget
    have hs : (61 : Nat) ∉ s := hsegs s (by simp)
    have hrest : ∀ x ∈ rest, (61 : Nat) ∉ x := fun x hx => hsegs x (by simp [hx])
    rw [foldBlock_cons_some (parse_env_line_cont hs hget) rest]
    have hget' : envGet k (envInsert k (w ++ 10 :: s) env) = some (w ++ 10 :: s) :=
      envGet_insert_self k (w ++ 10 :: s) env
    rw [ih (envInsert k (w ++ 10 :: s) env) (w ++ 10 :: s) hrest hget']
    by_cases hr : rest = []
    · subst hr; simp
    · rw [if_neg hr, if_neg (by simp)]
      rw [envInsert_insert_same]
      have : (w ++ 10 :: s) ++ (rest.map fun x => 10 :: x).flatten =
          w ++ ((s :: rest).map fun x => 10 :: x).flatten := by
        simp
      rw [this]

theorem foldBlock_record (k v : ByteStr) (hk61 : (61 : Nat) ∉ k) (hk10 : (10 : Nat) ∉ k)
    (hv : ∀ s ∈ (splitOnByte 10 v).tail, (61 : Nat) ∉ s) :
    ∀ env prev, foldBlock (splitOnByte 10 (k ++ 61 :: v)) env prev =
      some (envInsert k v env, some k) := by
  intro env prev
  cases hsv : splitOnByte 10 v with
  | nil => exact absurd hsv (splitOnByte_ne_nil 10 v)
  | cons v0 vrest =>
    have hpre : (10 : Nat) ∉ k ++ [61] := by
      intro hx
      rcases List.mem_append.mp hx with hx | hx
      · exact hk10 hx
      · simp at hx
    have hassoc : k ++ 61 :: v = (k ++ [61]) ++ v := by simp
    rw [hassoc, splitOnByte_clean_head 10 (k ++ [61]) v v0 vrest hpre hsv]
    have hsplit : splitEq ((k ++ [61]) ++ v0) = some (k, v0) := by
      have : (k ++ [61]) ++ v0 = k ++ 61 :: v0 := by simp
      rw [this]
      exact splitEq_append k v0 hk61
    rw [foldBlock_cons_some (parse_env_line_kv hsplit env prev) vrest]
    have hvrest : ∀ s ∈ vrest, (61 : Nat) ∉ s := by
      intro s hs
      exact hv s (by simp [hsv, hs])
    rw [foldBlock_continuations k vrest (envInsert k v0 env) v0 hvrest
      (envGet_insert_self k v0 env)]
    have hrec := splitOnByte_reconstruct 10 v v0 vrest hsv
    by_cases hr : vrest = []
    · subst hr
      simp at hrec
      simp [hrec]
    · rw [if_neg hr, envInsert_insert_same, ← hrec]

theorem splitOnByte_serialize (env : Env) :
    splitOnByte 10 (serializeEnv env) =
      (env.map fun kv => splitOnByte 10 (kv.1 ++ 61 :: kv.2)).flatten ++ [[]] := by
  induction env with
  | nil => simp [serializeEnv, splitOnByte]
  | cons kv rest ih =>
    obtain ⟨k, v⟩ := kv
    have hser : serializeEnv ((k, v) :: rest) =
        (k ++ 61 :: v) ++ 10 :: serializeEnv rest := by
      simp [serializeEnv, serializeRecord]
    rw [hser, splitOnByte_append, ih]
    simp

theorem splitLines_serialize (env : Env) :
    splitLines (serializeEnv env) =
      (env.map fun kv => splitOnByte 10 (kv.1 ++ 61 :: kv.2)).flatten := by
  rw [splitLines, splitOnByte_serialize]
  simp

theorem foldBlock_records (env : Env)
    (hk : ∀ kv ∈ env, (61 : Nat) ∉ kv.1 ∧ (10 : Nat) ∉ kv.1)
    (hv : ∀ kv ∈ env, ∀ s ∈ (splitOnByte 10 kv.2).tail, (61 : Nat) ∉ s) :
    ∀ acc prev, ∃ p',
      foldBlock ((env.map fun kv => splitOnByte 10 (kv.1 ++ 61 :: kv.2)).flatten) acc prev =
        some (env.foldl (fun a kv => envInsert kv.1 kv.2 a) acc, p') := by
  induction env with
  | nil => intro acc prev; exact ⟨prev, rfl⟩
  | cons kv rest ih =>
    intro acc prev
    obtain ⟨k, v⟩ := kv
    obtain ⟨h61, h10⟩ := hk (k, v) (by simp)
    have hvh := hv (k, v) (by simp)
    have hkrest : ∀ x ∈ rest, (61 : Nat) ∉ x.1 ∧ (10 : Nat) ∉ x.1 :=
      fun x hx => hk x (by simp [hx])
    have hvrest : ∀ x ∈ rest, ∀ s ∈ (splitOnByte 10 x.2).tail, (61 : Nat) ∉ s :=
      fun x hx => hv x (by simp [hx])
    rw [List.map_cons, List.flatten_cons, foldBlock_append,
      foldBlock_record k v h61 h10 hvh acc prev]
    exact ih hkrest hvrest (envInsert k v acc) (some k)

theorem envInsert_append (k v : ByteStr) :
    ∀ acc : Env, (∀ kv ∈ acc, byteLt kv.1 k = true) → envInsert k v acc = acc ++ [(k, v)] := by
  intro acc
  induction acc with
  | nil => intro _; rfl
  | cons hd rest ih =>
    obtain ⟨k', w⟩ := hd
    intro h
    have hk' : byteLt k' k = true := h (k', w) (by simp)
    have h1 : byteLt k k' = false := byteLt_asymm k' k hk'
    have h2 : k ≠ k' := fun hx => (byteLt_ne hk') hx.symm
    rw [envInsert, if_neg (by simp [h1]), if_neg h2,
      ih fun kv hkv => h kv (by simp [hkv])]
    rfl

theorem foldl_insert_sorted :
    ∀ env acc : Env, EnvWF (acc ++ env) →
      env.foldl (fun a kv => envInsert kv.1 kv.2 a) acc = acc ++ env := by
  intro env
  induction env with
  | nil => intro acc _; simp
  | cons kv rest ih =>
    intro acc hwf
    obtain ⟨k, v⟩ := kv
    have hlt : ∀ x ∈ acc, byteLt x.1 k = true := by
      intro x hx
      have := (List.pairwise_append.mp hwf).2.2 x hx (k, v) (by simp)
      exact this
    rw [List.foldl_cons]
    rw [envInsert_append k v acc hlt]
    have hwf' : EnvWF ((acc ++ [(k, v)]) ++ rest) := by
      rw [List.append_assoc]
      simpa using hwf
    rw [ih (acc ++ [(k, v)]) hwf']
    simp

/-! Step and segment lemmas for the `parse_env_diff` state machine. -/

theorem loop_step_preBefore (l : ByteStr) (rest : List ByteStr) (old new : Env)
    (prev : Option ByteStr) (out : List ByteStr) :
    parseEnvDiffLoop (l :: rest) .preBefore old new prev out =
      if l = sentinelBeginBefore then parseEnvDiffLoop rest .inBefore old new none out
      else parseEnvDiffLoop rest .preBefore old new prev (l :: out) := rfl

theorem loop_step_inBefore (l : ByteStr) (rest : List ByteStr) (old new : Env)
    (prev : Option ByteStr) (out : List ByteStr) :
    parseEnvDiffLoop (l :: rest) .inBefore old new prev out =
      if l = sentinelEndBefore then parseEnvDiffLoop rest .preAfter old new none out
      else
        match parse_env_line l old prev with
        | none => none
        | some (old', prev') => parseEnvDiffLoop rest .inBefore old' new prev' out := rfl

theorem loop_step_preAfter (l : ByteStr) (rest : List ByteStr) (old new : Env)
    (prev : Option ByteStr) (out : List ByteStr) :
    parseEnvDiffLoop (l :: rest) .preAfter old new prev out =
      if l = sentinelBeginAfter then parseEnvDiffLoop rest .inAfter old new none out
      else parseEnvDiffLoop rest .preAfter old new prev (l :: out) := rfl

theorem loop_step_inAfter (l : ByteStr) (rest : List ByteStr) (old new : Env)
    (prev : Option ByteStr) (out : List ByteStr) :
    parseEnvDiffLoop (l :: rest) .inAfter old new prev out =
      if l = sentinelEndAfter then parseEnvDiffLoop rest .done old new none out
      else
        match parse_env_line l new prev with
        | none => none
        | some (new', prev') => parseEnvDiffLoop rest .inAfter old new' prev' out := rfl

theorem loop_drain_preBefore (pre : List ByteStr) (h : sentinelBeginBefore ∉ pre) :
    ∀ rest old new prev out,
      parseEnvDiffLoop (pre ++ rest) .preBefore old new prev out =
        parseEnvDiffLoop rest .preBefore old new prev (pre.reverse ++ out) := by
  induction pre with
  | nil => intro rest old new prev out; simp
  | cons l t ih =>
    intro rest old new prev out
    have hl : l ≠ sentinelBeginBefore := fun hx => h (by simp [hx])
    have ht : sentinelBeginBefore ∉ t := fun hx => h (by simp [hx])
    rw [List.cons_append, loop_step_preBefore, if_neg hl, ih ht]
    simp

theorem loop_drain_preAfter (mid : List ByteStr) (h : sentinelBeginAfter ∉ mid) :
    ∀ rest old new prev out,
      parseEnvDiffLoop (mid ++ rest) .preAfter old new prev out =
        parseEnvDiffLoop rest .preAfter old new prev (mid.reverse ++ out) := by
  induction mid with
  | nil => intro rest old new prev out; simp
  | cons l t ih =>
    intro rest old new prev out
    have hl : l ≠ sentinelBeginAfter := fun hx => h (by simp [hx])
    have ht : sentinelBeginAfter ∉ t := fun hx => h (by simp [hx])
    rw [List.cons_append, loop_step_preAfter, if_neg hl, ih ht]
    simp

theorem loop_drain_done (post : List ByteStr) :
    ∀ old new prev out,
      parseEnvDiffLoop post .done old new prev out = some (old, new, out.reverse ++ post) := by
  induction post with
  | nil => intro old new prev out; simp [parseEnvDiffLoop]
  | cons l t ih =>
    intro old new prev out
    show parseEnvDiffLoop t .done old new prev (l :: out) = _
    rw [ih]
    simp

theorem loop_block_inBefore (b : List ByteStr) (h : sentinelEndBefore ∉ b) :
    ∀ rest old new prev out,
      parseEnvDiffLoop (b ++ rest) .inBefore old new prev out =
        match foldBlock b old prev with
        | none => none
        | some (old', prev') => parseEnvDiffLoop rest .inBefore old' new prev' out := by
  induction b with
  | nil => intro rest old new prev out; simp [foldBlock]
  | cons l t ih =>
    intro rest old new prev out
    have hl : l ≠ sentinelEndBefore := fun hx => h (by simp [hx])
    have ht : sentinelEndBefore ∉ t := fun hx => h (by simp [hx])
    rw [List.cons_append, loop_step_inBefore, if_neg hl, foldBlock_cons]
    cases hp : parse_env_line l old prev with
    | none => rfl
    | some ep => exact ih ht rest ep.1 new ep.2 out

theorem loop_block_inAfter (b : List ByteStr) (h : sentinelEndAfter ∉ b) :
    ∀ rest old new prev out,
      parseEnvDiffLoop (b ++ rest) .inAfter old new prev out =
        match foldBlock b new prev with
        | none => none
        | some (new', prev') => parseEnvDiffLoop rest .inAfter old new' prev' out := by
  induction b with
  | nil => intro rest old new prev out; simp [foldBlock]
  | cons l t ih =>
    intro rest old new prev out
    have hl : l ≠ sentinelEndAfter := fun hx => h (by simp [hx])
    have ht : sentinelEndAfter ∉ t := fun hx => h (by simp [hx])
    rw [List.cons_append, loop_step_inAfter, if_neg hl, foldBlock_cons]
    cases hp : parse_env_line l new prev with
    | none => rfl
    | some ep => exact ih ht rest old ep.1 ep.2 out

/-! Claim theorems. -/

/-- C1: the diff written by the Materializer contains exactly those keys of
the after snapshot whose value differs from the before snapshot's value or
whose key is absent from the before snapshot, mapped to the after value;
unchanged keys and keys present only in the before snapshot never appear. -/
theorem computeDiff_exact (old new : Env) (hwf : EnvWF new) (k v : ByteStr) :
    (k, v) ∈ computeDiff old new ↔ envGet k new = some v ∧ envGet k old ≠ some v := by
  rw [computeDiff]
  constructor
  · intro h
    obtain ⟨hmem, hne⟩ := List.mem_filter.mp h
    exact ⟨mem_envGet hwf hmem, by simpa using hne⟩
  · intro ⟨hnew, hold⟩
    exact List.mem_filter.mpr ⟨envGet_mem hnew, by simpa using hold⟩

theorem computeDiff_exact_witness :
    EnvWF [([97], [49]), ([98], [50])] ∧
      (([97], [49]) ∈ computeDiff [([97], [48])] [([97], [49]), ([98], [50])] ↔
        envGet [97] [([97], [49]), ([98], [50])] = some [49] ∧
          envGet [97] [([97], [48])] ≠ some [49]) :=
  ⟨by decide, computeDiff_exact [([97], [48])] [([97], [49]), ([98], [50])] (by decide) [97] [49]⟩

/-- C4: when the activation subprocess exits with a non-zero status,
materialization reports an error and the cache-file state is exactly what it
was before (absent stays absent, existing contents stay untouched); since the
exit status is a boolean, this also shows the cache is only rewritten on a
successful exit. -/
theorem compute_envvars_nonzero_exit (cache : Option ByteStr) (stdout : ByteStr) :
    (compute_envvars cache stdout false).2 = cache ∧
      ∃ msg, (compute_envvars cache stdout false).1 = Except.error msg := by
  cases h : parse_env_diff stdout with
  | none => simp [compute_envvars, h]
  | some r =>
    obtain ⟨o, n, out⟩ := r
    simp [compute_envvars, h]

/-- C9: in subprocess transfer mode the Shim Dispatcher exits with the
child's exit code whenever one exists, and with the fixed fallback 134
otherwise, which differs from the generic failure code 1 and from the
interrupt handler's exit code 130. -/
theorem exec_shimmed_binary_exit_spec (c : Int) :
    exec_shimmed_binary_exit (some c) = c ∧
      exec_shimmed_binary_exit none = 134 ∧
      (134 : Int) ≠ genericFailureExitCode ∧
      (134 : Int) ≠ INTERRUPTED_EXIT_CODE :=
  ⟨rfl, rfl, by decide, by decide⟩

/-- Any line containing the separator byte parses as a key/value split. -/
theorem splitEq_isSome_of_mem (l : ByteStr) (h : (61 : Nat) ∈ l) :
    ∃ kv, splitEq l = some kv := by
  induction l with
  | nil => simp at h
  | cons c rest ih =>
    by_cases hc : c = 61
    · exact ⟨([], rest), by rw [splitEq, if_pos hc]⟩
    · have hrest : (61 : Nat) ∈ rest := by
        rcases List.mem_cons.mp h with h | h
        · exact absurd h.symm hc
        · exact h
      obtain ⟨⟨k, v⟩, hkv⟩ := ih hrest
      exact ⟨(c :: k, v), by rw [splitEq, if_neg hc, hkv]⟩

/-- Once the previous variable is one with an entry in the snapshot, the
fold over the remaining lines of a block can never hit the panicking
lookups. -/
theorem foldBlock_total_of_prev : ∀ (lines : List ByteStr) (env : Env) (k w : ByteStr),
    envGet k env = some w → foldBlock lines env (some k) ≠ none := by
  intro lines
  induction lines with
  | nil => intro env k w _ h; simp [foldBlock] at h
  | cons l rest ih =>
    intro env k w hget h
    by_cases hl : (61 : Nat) ∈ l
    · obtain ⟨⟨k', v'⟩, hkv⟩ := splitEq_isSome_of_mem l hl
      rw [foldBlock_cons_some (parse_env_line_kv hkv env (some k)) rest] at h
      exact ih _ k' v' (envGet_insert_self k' v' env) h
    · rw [foldBlock_cons_some (parse_env_line_cont hl hget) rest] at h
      exact ih _ k (w ++ 10 :: l) (envGet_insert_self k (w ++ 10 :: l) env) h

/-- C6: under the per-block invariant that a separator line precedes any
continuation line (equivalently: a non-empty block's first line contains the
separator), folding `parse_env_line` over the block from an empty snapshot
and a reset previous-variable tracker is total — the `unwrap` calls in the
continuation branch cannot panic. This covers both sentinel blocks of
`parse_env_diff` (which reset the tracker to `none` at each block boundary)
and cache-file loading in `get_envvars`, both of which start exactly from
this state. -/
theorem foldBlock_no_panic (lines : List ByteStr)
    (h : ∀ l, lines.head? = some l → (61 : Nat) ∈ l) :
    foldBlock lines [] none ≠ none := by
  cases lines with
  | nil => simp [foldBlock]
  | cons l rest =>
    intro hcontra
    obtain ⟨⟨k, v⟩, hkv⟩ := splitEq_isSome_of_mem l (h l rfl)
    rw [foldBlock_cons_some (parse_env_line_kv hkv [] none) rest] at hcontra
    exact foldBlock_total_of_prev rest _ k v (envGet_insert_self k v []) hcontra

theorem foldBlock_no_panic_witness :
    (∀ l, ([[97, 61, 49], [99]] : List ByteStr).head? = some l → (61 : Nat) ∈ l) ∧
      foldBlock [[97, 61, 49], [99]] [] none ≠ none :=
  ⟨by decide, foldBlock_no_panic [[97, 61, 49], [99]] (by decide)⟩

/-- C7 counterexample: with an activation file that exists in the working
directory but whose open fails, the walk returns `NoEnvrc`, not an I/O
error — `if let Ok(f) = File::open(..)` swallows the open failure and keeps
walking. -/
theorem resolve_envrc_walk_counterexample :
    c7Open ["a"] = OpenOutcome.errOther ∧
      resolve_envrc_walk c7Open ["a"] = ResolveOutcome.noEnvrc ∧
      resolve_envrc_walk c7Open ["a"] ≠ ResolveOutcome.ioError := by decide

/-- C7 (amended): the walk in `resolve_envrc_context` never reports an I/O
error: every open failure, whatever its kind, is treated as the file being
absent and the walk continues to the parent; `NoEnvrc` is returned exactly
when no directory along the walk (the working directory and all its
ancestors) opens successfully. -/
theorem resolve_envrc_walk_spec (f : List String → OpenOutcome) (d : List String) :
    resolve_envrc_walk f d ≠ ResolveOutcome.ioError ∧
      (resolve_envrc_walk f d = ResolveOutcome.noEnvrc ↔ walkCanOpen f d = false) := by
  induction d with
  | nil =>
    cases hf : f [] with
    | opened h => simp [resolve_envrc_walk, hf, walkCanOpen]
    | errOther => simp [resolve_envrc_walk, hf, walkCanOpen]
    | errNotFound => simp [resolve_envrc_walk, hf, walkCanOpen]
  | cons a p ih =>
    have htails : walkCanOpen f (a :: p) =
        ((match f (a :: p) with | OpenOutcome.opened _ => true | _ => false) ||
          walkCanOpen f p) := by
      rw [walkCanOpen, walkCanOpen, List.tails_cons, List.any_cons]
    cases hf : f (a :: p) with
    | opened h =>
      rw [htails, hf]
      simp [resolve_envrc_walk, hf]
    | errOther =>
      rw [htails, hf]
      simpa [resolve_envrc_walk, hf] using ih
    | errNotFound =>
      rw [htails, hf]
      simpa [resolve_envrc_walk, hf] using ih

theorem joinPaths_cons (e : ByteStr) :
    ∀ l : List ByteStr, joinPaths (e :: l) = e ++ prependPaths l := by
  intro l
  induction l generalizing e with
  | nil => simp [joinPaths, prependPaths]
  | cons f t ih =>
    rw [joinPaths, ih f]
    simp [prependPaths]

theorem amendPathLoop_ne_nil (sb : ByteStr) (canon : ByteStr → Option ByteStr) :
    ∀ (entries : List ByteStr) (acc : ByteStr), acc ≠ [] →
      amendPathLoop sb canon entries acc =
        acc ++ prependPaths (entries.filter fun e => !skipEntry sb canon e) := by
  intro entries
  induction entries with
  | nil => intro acc _; simp [amendPathLoop, prependPaths]
  | cons e rest ih =>
    intro acc hacc
    rw [amendPathLoop]
    by_cases hskip : skipEntry sb canon e
    · rw [if_pos hskip, ih acc hacc]
      simp [hskip]
    · rw [if_neg hskip]
      have hne : acc.isEmpty = false := by
        cases acc with
        | nil => exact absurd rfl hacc
        | cons c cs => rfl
      rw [hne]
      have hacc' : (if false = true then acc else acc ++ [58]) ++ e ≠ [] := by simp
      rw [ih _ hacc']
      simp [hskip, prependPaths]

theorem amendPathLoop_nil (sb : ByteStr) (canon : ByteStr → Option ByteStr) :
    ∀ entries : List ByteStr,
      amendPathLoop sb canon entries [] =
        joinPaths (((entries.filter fun e => !skipEntry sb canon e).dropWhile
          fun e => e.isEmpty)) := by
  intro entries
  induction entries with
  | nil => simp [amendPathLoop, joinPaths]
  | cons e rest ih =>
    rw [amendPathLoop]
    by_cases hskip : skipEntry sb canon e
    · rw [if_pos hskip, ih]
      simp [hskip]
    · rw [if_neg hskip]
      by_cases he : e = []
      · subst he
        show amendPathLoop sb canon rest [] = _
        rw [ih]
        simp [hskip]
      · show amendPathLoop sb canon rest e = _
        rw [amendPathLoop_ne_nil sb canon rest e he]
        have : List.dropWhile (fun x => x.isEmpty)
            ((e :: rest).filter fun x => !skipEntry sb canon x) =
            e :: (rest.filter fun x => !skipEntry sb canon x) := by
          have hef : e.isEmpty = false := by
            cases e with
            | nil => exact absurd rfl he
            | cons c cs => rfl
          simp [hskip, List.dropWhile_cons, hef]
        rw [this, joinPaths_cons]

/-- C5 (amended): the amended PATH computed at shim dispatch is the
`:`-joining, in their original order, of those entries of the input PATH
that neither equal the shim-bin directory nor canonicalize to it — except
that leading *empty* kept entries are dropped, because the loop emits no
separator while its accumulator is still empty. All matching entries,
including duplicates, are removed. -/
theorem amendPath_exact (sb : ByteStr) (canon : ByteStr → Option ByteStr)
    (pathStr : ByteStr) :
    amendPath sb canon pathStr =
      joinPaths (((splitPaths pathStr).filter fun e => !skipEntry sb canon e).dropWhile
        fun e => e.isEmpty) :=
  amendPathLoop_nil sb canon (splitPaths pathStr)

/-- C5 counterexample: for the input PATH ":a" (entries `""` and `"a"`,
neither matching the shim-bin directory "/q"), the amended PATH is "a": its
entries are not exactly the non-matching input entries — the leading empty
entry is lost. -/
theorem amendPath_counterexample :
    amendPath [47, 113] c5Canon [58, 97] = [97] ∧
      (splitPaths [58, 97]).filter (fun e => !skipEntry [47, 113] c5Canon e) =
        [[], [97]] ∧
      amendPath [47, 113] c5Canon [58, 97] ≠
        joinPaths ((splitPaths [58, 97]).filter fun e => !skipEntry [47, 113] c5Canon e) ∧
      splitPaths (amendPath [47, 113] c5Canon [58, 97]) ≠
        (splitPaths [58, 97]).filter fun e => !skipEntry [47, 113] c5Canon e := by
  decide

theorem loop_block_inBefore_some {b : List ByteStr} (h : sentinelEndBefore ∉ b)
    {old : Env} {prev : Option ByteStr} {e : Env} {p : Option ByteStr}
    (hfold : foldBlock b old prev = some (e, p)) {rest : List ByteStr} {new : Env}
    {out : List ByteStr} :
    parseEnvDiffLoop (b ++ rest) .inBefore old new prev out =
      parseEnvDiffLoop rest .inBefore e new p out := by
  rw [loop_block_inBefore b h rest old new prev out, hfold]

theorem loop_block_inAfter_some {b : List ByteStr} (h : sentinelEndAfter ∉ b)
    {new : Env} {prev : Option ByteStr} {e : Env} {p : Option ByteStr}
    (hfold : foldBlock b new prev = some (e, p)) {rest : List ByteStr} {old : Env}
    {out : List ByteStr} :
    parseEnvDiffLoop (b ++ rest) .inAfter old new prev out =
      parseEnvDiffLoop rest .inAfter old e p out := by
  rw [loop_block_inAfter b h rest old new prev out, hfold]

/-- C2: on a well-formed sentinel-delimited stream (the four sentinel lines
each occurring exactly once, in protocol order), `parse_env_diff` returns
the before snapshot folded exactly from the lines strictly between the
BEFORE sentinels, the after snapshot folded exactly from the lines strictly
between the AFTER sentinels, and hands the pass-through callback exactly the
remaining non-sentinel lines, in their original input order. -/
theorem parse_env_diff_wellformed (input : ByteStr)
    (pre b1 mid b2 post : List ByteStr) (e1 e2 : Env) (p1 p2 : Option ByteStr)
    (hsplit : splitLines input =
      pre ++ sentinelBeginBefore ::
        (b1 ++ sentinelEndBefore ::
          (mid ++ sentinelBeginAfter :: (b2 ++ sentinelEndAfter :: post))))
    (hpre : ∀ s ∈ sentinels, s ∉ pre) (hb1 : ∀ s ∈ sentinels, s ∉ b1)
    (hmid : ∀ s ∈ sentinels, s ∉ mid) (hb2 : ∀ s ∈ sentinels, s ∉ b2)
    (h1 : foldBlock b1 [] none = some (e1, p1))
    (h2 : foldBlock b2 [] none = some (e2, p2)) :
    parse_env_diff input = some (e1, e2, pre ++ mid ++ post) := by
  rw [parse_env_diff, hsplit]
  rw [loop_drain_preBefore pre (hpre sentinelBeginBefore (by simp [sentinels]))]
  rw [loop_step_preBefore, if_pos rfl]
  rw [loop_block_inBefore_some (hb1 sentinelEndBefore (by simp [sentinels])) h1]
  rw [loop_step_inBefore, if_pos rfl]
  rw [loop_drain_preAfter mid (hmid sentinelBeginAfter (by simp [sentinels]))]
  rw [loop_step_preAfter, if_pos rfl]
  rw [loop_block_inAfter_some (hb2 sentinelEndAfter (by simp [sentinels])) h2]
  rw [loop_step_inAfter, if_pos rfl]
  rw [loop_drain_done post]
  simp

theorem parse_env_diff_wellformed_witness :
    parse_env_diff c2Input =
      some ([([97], [49])], [([97], [50])],
        [asciiStr "echo1"] ++ [asciiStr "echo2"] ++ [asciiStr "echo3"]) :=
  parse_env_diff_wellformed c2Input
    [asciiStr "echo1"] [asciiStr "a=1"] [asciiStr "echo2"] [asciiStr "a=2"]
    [asciiStr "echo3"] [([97], [49])] [([97], [50])] (some [97]) (some [97])
    (by decide) (by decide) (by decide) (by decide) (by decide)
    (by decide) (by decide)

/-- C3 counterexample: the round-trip fails on a snapshot whose value has a
continuation segment containing `'='`: `{k ↦ "a\nb=c"}` serializes to
`"k=a\nb=c\n"`, which parses back as the two variables `k ↦ "a"` and
`b ↦ "c"`. -/
theorem cache_roundtrip_counterexample :
    EnvWF [([107], [97, 10, 98, 61, 99])] ∧
      parseCache (serializeEnv [([107], [97, 10, 98, 61, 99])]) ≠
        some [([107], [97, 10, 98, 61, 99])] ∧
      parseCache (serializeEnv [([107], [97, 10, 98, 61, 99])]) =
        some [([98], [99]), ([107], [97])] := by decide

/-- C3 (amended): serializing a snapshot in the cache format and parsing it
back yields an equal mapping, including values with embedded newlines,
provided no variable name contains `'='` or a newline and no continuation
segment of a value (the part after an embedded newline, up to the next one)
contains `'='`. -/
theorem cache_roundtrip (env : Env) (hwf : EnvWF env)
    (hk : ∀ kv ∈ env, (61 : Nat) ∉ kv.1 ∧ (10 : Nat) ∉ kv.1)
    (hv : ∀ kv ∈ env, ∀ s ∈ (splitOnByte 10 kv.2).tail, (61 : Nat) ∉ s) :
    parseCache (serializeEnv env) = some env := by
  rw [parseCache, splitLines_serialize]
  obtain ⟨p', hfold⟩ := foldBlock_records env hk hv [] none
  rw [hfold]
  have := foldl_insert_sorted env [] (by simpa using hwf)
  simp [this]

theorem cache_roundtrip_witness :
    parseCache (serializeEnv [([107], [97, 10, 98])]) = some [([107], [97, 10, 98])] :=
  cache_roundtrip [([107], [97, 10, 98])] (by decide) (by decide) (by decide)

/-- Membership in the per-directory accumulation of the Missing-Shim
Detector. -/
theorem get_missing_shims_from_dir_mem (shimExists : String → Bool)
    (entries : List FileEntry) :
    ∀ (rv : List String) (name : String),
      name ∈ get_missing_shims_from_dir shimExists entries rv ↔
        name ∈ rv ∨ ∃ e ∈ entries, e.name = name ∧ e.isDir = false ∧
          e.mode &&& 0o111 ≠ 0 ∧ shimExists e.name = false := by
  induction entries with
  | nil => intro rv name; simp [get_missing_shims_from_dir]
  | cons e rest ih =>
    intro rv name
    have hstep : get_missing_shims_from_dir shimExists (e :: rest) rv =
        get_missing_shims_from_dir shimExists rest
          (if e.isDir then rv
           else if e.mode &&& 0o111 == 0 then rv
           else if shimExists e.name then rv
           else rv.insert e.name) := rfl
    rw [hstep]
    by_cases h1 : e.isDir
    · rw [if_pos h1, ih]
      simp [h1]
    · rw [if_neg h1]
      by_cases h2 : e.mode &&& 0o111 == 0
      · rw [if_pos h2, ih]
        have h2' : e.mode &&& 0o111 = 0 := by simpa using h2
        simp [h2']
      · rw [if_neg h2]
        have h2' : e.mode &&& 0o111 ≠ 0 := by simpa using h2
        by_cases h3 : shimExists e.name
        · rw [if_pos h3, ih]
          simp only [Bool.not_eq_true] at h1
          simp [h1, h2', h3]
        · rw [if_neg h3, ih]
          have h1' : e.isDir = false := by simpa using h1
          have h3' : shimExists e.name = false := by simpa using h3
          rw [List.exists_mem_cons_iff]
          constructor
          · rintro (h | h)
            · rcases List.mem_insert_iff.mp h with h | h
              · exact Or.inr (Or.inl ⟨h.symm, h1', h2', h3'⟩)
              · exact Or.inl h
            · exact Or.inr (Or.inr h)
          · rintro (h | ⟨hn, _⟩ | h)
            · exact Or.inl (List.mem_insert_iff.mpr (Or.inr h))
            · exact Or.inl (List.mem_insert_iff.mpr (Or.inl hn.symm))
            · exact Or.inr h

/-- C8: a basename is reported by `get_missing_shims` for a new `PATH`
exactly when some directory of the new `PATH` does not occur (after
canonicalization, on both sides) in the ambient `PATH`, is readable, and
contains an entry with that name that is not a directory, carries at least
one executable bit, and has no existing shim in the tool's bin directory. -/
theorem get_missing_shims_exact (canon : ByteStr → Option ByteStr)
    (readDir : ByteStr → Option (List FileEntry)) (shimExists : String → Bool)
    (oldPath : List ByteStr) (newDirs : List ByteStr) (name : String) :
    name ∈ get_missing_shims canon readDir shimExists oldPath (some newDirs) ↔
      ∃ d ∈ newDirs, (canon d).getD d ∉ oldPath.map (fun x => (canon x).getD x) ∧
        ∃ entries, readDir ((canon d).getD d) = some entries ∧
          ∃ e ∈ entries, e.name = name ∧ e.isDir = false ∧
            e.mode &&& 0o111 ≠ 0 ∧ shimExists e.name = false := by
  rw [get_missing_shims]
  suffices h : ∀ rv : List String,
      name ∈ newDirs.foldl
        (fun rv d =>
          if (canon d).getD d ∈ oldPath.map (fun x => (canon x).getD x) then rv
          else
            match readDir ((canon d).getD d) with
            | none => rv
            | some entries => get_missing_shims_from_dir shimExists entries rv)
        rv ↔
      name ∈ rv ∨ ∃ d ∈ newDirs, (canon d).getD d ∉ oldPath.map (fun x => (canon x).getD x) ∧
        ∃ entries, readDir ((canon d).getD d) = some entries ∧
          ∃ e ∈ entries, e.name = name ∧ e.isDir = false ∧
            e.mode &&& 0o111 ≠ 0 ∧ shimExists e.name = false by
    rw [h []]
    simp
  induction newDirs with
  | nil => intro rv; simp
  | cons d rest ih =>
    intro rv
    simp only [List.foldl_cons]
    by_cases hmem : (canon d).getD d ∈ oldPath.map fun x => (canon x).getD x
    · rw [if_pos hmem, ih rv, List.exists_mem_cons_iff]
      constructor
      · rintro (h | h)
        · exact Or.inl h
        · exact Or.inr (Or.inr h)
      · rintro (h | ⟨hd, _⟩ | h)
        · exact Or.inl h
        · exact absurd hmem hd
        · exact Or.inr h
    · rw [if_neg hmem]
      cases hrd : readDir ((canon d).getD d) with
      | none =>
        rw [show (match (none : Option (List FileEntry)) with
            | none => rv
            | some entries => get_missing_shims_from_dir shimExists entries rv) = rv
          from rfl]
        rw [ih rv, List.exists_mem_cons_iff]
        constructor
        · rintro (h | h)
          · exact Or.inl h
          · exact Or.inr (Or.inr h)
        · rintro (h | ⟨_, _, hentries, _⟩ | h)
          · exact Or.inl h
          · rw [hrd] at hentries
            exact Option.noConfusion hentries
          · exact Or.inr h
      | some entries =>
        rw [show (match (some entries : Option (List FileEntry)) with
            | none => rv
            | some entries => get_missing_shims_from_dir shimExists entries rv) =
            get_missing_shims_from_dir shimExists entries rv
          from rfl]
        rw [ih (get_missing_shims_from_dir shimExists entries rv),
          get_missing_shims_from_dir_mem shimExists entries rv name,
          List.exists_mem_cons_iff]
        constructor
        · rintro ((h | h) | h)
          · exact Or.inl h
          · exact Or.inr (Or.inl ⟨hmem, entries, hrd, h⟩)
          · exact Or.inr (Or.inr h)
        · rintro (h | ⟨_, entries', hentries, he⟩ | h)
          · exact Or.inl (Or.inl h)
          · rw [hrd] at hentries
            obtain rfl := Option.some_injective _ hentries
            exact Or.inl (Or.inr he)
          · exact Or.inr h

/-! Well-formedness preservation through parsing, for C10. -/

theorem parse_env_line_wf {line : ByteStr} {env : Env} {prev : Option ByteStr}
    {env' : Env} {prev' : Option ByteStr}
    (h : parse_env_line line env prev = some (env', prev')) (hwf : EnvWF env) :
    EnvWF env' := by
  cases hsp : splitEq line with
  | some kv =>
    obtain ⟨k, v⟩ := kv
    rw [parse_env_line_kv hsp env prev] at h
    obtain ⟨henv, _⟩ := Prod.mk.injEq .. ▸ Option.some_injective _ h
    rw [← henv]
    exact envInsert_wf k v env hwf
  | none =>
    unfold parse_env_line at h
    rw [hsp] at h
    cases prev with
    | none => exact Option.noConfusion h
    | some k =>
      have h' : (match envGet k env with
          | none => none
          | some w => some (envInsert k (w ++ 10 :: line) env, some k)) =
          some (env', prev') := h
      cases hget : envGet k env with
      | none =>
        rw [hget] at h'
        exact Option.noConfusion h'
      | some w =>
        rw [hget] at h'
        obtain ⟨henv, _⟩ := Prod.mk.injEq .. ▸ Option.some_injective _ h'
        rw [← henv]
        exact envInsert_wf k (w ++ 10 :: line) env hwf

theorem foldBlock_wf : ∀ (lines : List ByteStr) (env : Env) (prev : Option ByteStr)
    (r : Env × Option ByteStr), EnvWF env → foldBlock lines env prev = some r →
      EnvWF r.1 := by
  intro lines
  induction lines with
  | nil =>
    intro env prev r hwf h
    rw [foldBlock] at h
    obtain rfl := Option.some_injective _ h
    exact hwf
  | cons l rest ih =>
    intro env prev r hwf h
    rw [foldBlock_cons] at h
    cases hp : parse_env_line l env prev with
    | none =>
      rw [hp] at h
      exact Option.noConfusion h
    | some ep =>
      rw [hp] at h
      exact ih ep.1 ep.2 r (parse_env_line_wf hp hwf) h

/-- C10: snapshots live in an ordered map, so the records the Materializer
writes to the cache (the filtered after snapshot, in iteration order) have
strictly ascending variable names, and any successfully loaded cache — what
`command_vars` prints in iteration order — is strictly ascending as well;
the serialized cache bytes are therefore a function of the two snapshots
alone. -/
theorem cache_sorted (old new : Env) (bytes : ByteStr) (env : Env)
    (hnew : EnvWF new) (hparse : parseCache bytes = some env) :
    List.Pairwise (fun a b => byteLt a.1 b.1 = true) (computeDiff old new) ∧
      List.Pairwise (fun a b => byteLt a.1 b.1 = true) env := by
  constructor
  · exact List.Pairwise.sublist (List.filter_sublist _) hnew
  · rw [parseCache] at hparse
    cases hfold : foldBlock (splitLines bytes) [] none with
    | none =>
      rw [hfold] at hparse
      exact Option.noConfusion hparse
    | some r =>
      rw [hfold] at hparse
      obtain rfl : r.1 = env := Option.some_injective _ hparse
      exact foldBlock_wf (splitLines bytes) [] none r List.Pairwise.nil hfold

theorem cache_sorted_witness :
    List.Pairwise (fun a b => byteLt a.1 b.1 = true)
        (computeDiff [([97], [48])] [([97], [49]), ([98], [50])]) ∧
      List.Pairwise (fun a b => byteLt a.1 b.1 = true) [([97], [49])] :=
  cache_sorted [([97], [48])] [([97], [49]), ([98], [50])] [97, 61, 49, 10]
    [([97], [49])] (by decide) (by decide)

end Quickenv
